import Mathlib

set_option linter.unusedVariables false

/-!
# Verification of the `opusdir` directory reconciler (opusdir.py)

A shallow embedding of the core of `opusdir.py`, a tool that mirrors a tree
of FLAC audio directories into a tree of Opus transcodes.

Python strings are modelled as `List Char` (`Str`); file modification times
(Python `st_mtime`, only ever compared with `<`) as `Int`; Python `dict`
comprehensions keyed by file name as a last-entry-wins lookup (`mapLookup`);
Python `set` as a `List` used only through membership.  Fallible filesystem
operations in the executor are driven by an explicit environment (`Env`)
choosing each operation's outcome, and effects are recorded both in an
explicit filesystem state (`FS`) and as a trace of `Event`s.
-/

namespace Opusdir

/-- Python strings, modelled as lists of characters. -/
abbrev Str := List Char

/-- Python `str.endswith`. -/
def strEndsWith (s suffixStr : Str) : Bool := suffixStr.isSuffixOf s

/-- The lossless source extension `".flac"` (opusdir.py line 296). -/
def flacExt : Str := ".flac".toList

/-- The compressed destination extension `".opus"` (opusdir.py line 297). -/
def opusExt : Str := ".opus".toList

/-- The in-progress-write suffix `".partial"` (opusdir.py line 257). -/
def inprogExt : Str := ".partial".toList

/-- `".opus.partial"`, the deletable in-progress debris suffix (line 338). -/
def opusInprogExt : Str := ".opus.partial".toList

/-- The recognized cover filename `"cover.jpg"`. -/
def coverJpg : Str := "cover.jpg".toList

/-- The recognized cover filename `"cover.png"`. -/
def coverPng : Str := "cover.png".toList

/-- `cover_names = ['cover.jpg', 'cover.png']` (opusdir.py line 17),
priority-ordered list of recognized cover filenames. -/
def cover_names : List Str := [coverJpg, coverPng]

/-- A regular file record as built by `get_files`: absolute path, base name,
and modification time (opusdir.py class `File`, lines 153-165). -/
structure File where
  path : Str
  name : Str
  mtime : Int
deriving DecidableEq, Repr

/-- The `Action` value objects of opusdir.py (lines 346-377), as a closed
tagged variant.  `mkdir`, `remove` and `rmdir` carry only a destination path
(their Python `filepath` field is always the empty string). -/
inductive Action where
  | transcode (filepath destpath : Str)
  | copy (filepath destpath : Str)
  | mkdir (destpath : Str)
  | remove (destpath : Str)
  | rmdir (destpath : Str)
deriving DecidableEq, Repr

/-- `replace_ext` (opusdir.py lines 379-386): replace the file extension of a
path; if `path` does not end with `old`, simply append `new`. -/
def replace_ext (path old new : Str) : Str :=
  (if strEndsWith path old then path.take (path.length - old.length) else path) ++ new

/-- Python `posixpath.normpath`, used by `joinpath` and the executor.
Collapses repeated separators and `.` components and resolves `..` where
possible; empty path normalizes to `"."`. -/
def normpath (p : Str) : Str :=
  if p.isEmpty then ['.'] else
  let initialSlashes : Nat :=
    if p.take 1 = [ '/' ] then
      if p.take 2 = [ '/', '/' ] && p.take 3 ≠ [ '/', '/', '/' ] then 2 else 1
    else 0
  let comps := List.splitOn ('/' : Char) p
  let newComps := comps.foldl (fun acc comp =>
    if comp = [] || comp = [ '.' ] then acc
    else if comp ≠ [ '.', '.' ] || (initialSlashes = 0 && acc.isEmpty)
            || acc.getLast? = some [ '.', '.' ] then acc ++ [comp]
    else if !acc.isEmpty then acc.dropLast
    else acc) []
  let joined := List.intercalate [ '/' ] newComps
  let res := List.replicate initialSlashes ('/' : Char) ++ joined
  if res.isEmpty then ['.'] else res

/-- `joinpath` (opusdir.py lines 402-414) restricted to two components:
join without treating absolute second components specially, then normalize. -/
def joinpath (a b : Str) : Str :=
  normpath (if a.isEmpty || strEndsWith a [ '/' ] then a ++ b else a ++ '/' :: b)

/-- Last-entry-wins lookup by file name, the model of the Python dict
comprehensions `{file.name: file for file in files}` (lines 290-291):
a later file with the same name overwrites an earlier one. -/
def mapLookup : List File → Str → Option File
  | [], _ => none
  | f :: rest, n =>
    match mapLookup rest n with
    | some g => some g
    | none => if f.name = n then some f else none

/-- The freshness test of `sync_dirs` (lines 300 and 309):
`destname not in destmap or destmap[destname].mtime < file.mtime`. -/
def fresh (destfiles : List File) (destname : Str) (mtime : Int) : Bool :=
  match mapLookup destfiles destname with
  | none => true
  | some d => decide (d.mtime < mtime)

/-- The transcode pass of `sync_dirs` (lines 294-301): for every source file
whose path ends in `.flac`, plan a `transcode` to the extension-substituted
destination name unless the destination is at least as new.  The loop's two
effects (action list and `destset` additions) are independent, so the action
list is a `filterMap` over the source files; `flac_destset` below is the
`destset` contribution of the same loop. -/
def transcode_actions (destdir : Str) (destfiles srcfiles : List File) : List Action :=
  srcfiles.filterMap (fun f =>
    if strEndsWith f.path flacExt then
      if fresh destfiles (replace_ext f.name flacExt opusExt) f.mtime then
        some (Action.transcode f.path
          (joinpath destdir (replace_ext f.name flacExt opusExt)))
      else none
    else none)

/-- The `destset` additions of the transcode pass (line 299): every
extension-substituted destination name of a `.flac` source file, whether or
not the corresponding action was emitted. -/
def flac_destset (srcfiles : List File) : List Str :=
  srcfiles.filterMap (fun f =>
    if strEndsWith f.path flacExt then some (replace_ext f.name flacExt opusExt)
    else none)

/-- The cover-selection loop head (lines 304-305): the first name of
`cover_names` present in `srcmap`, together with the source file it maps to
(the `break` makes at most one iteration act). -/
def find_cover (srcfiles : List File) : Option (Str × File) :=
  cover_names.findSome? (fun name => (mapLookup srcfiles name).map (fun f => (name, f)))

/-- The cover pass of `sync_dirs` (lines 303-311): copy the selected cover
file under the same freshness rule. -/
def cover_actions (destdir : Str) (destfiles srcfiles : List File) : List Action :=
  match find_cover srcfiles with
  | none => []
  | some (name, f) =>
    if fresh destfiles name f.mtime then
      [Action.copy f.path (joinpath destdir f.name)]
    else []

/-- The `destset` addition of the cover pass (line 308). -/
def cover_destset (srcfiles : List File) : List Str :=
  match find_cover srcfiles with
  | none => []
  | some (_, f) => [f.name]

/-- The full destination-knowledge set accumulated by `sync_dirs` before the
deletion pass: names the plan intends to produce or keep. -/
def destset_of (srcfiles : List File) : List Str :=
  flac_destset srcfiles ++ cover_destset srcfiles

/-- `can_delete` (opusdir.py lines 337-344): the deletion-safety predicate.
A destination name is deletable if it ends with `.opus.partial`, ends with
`.opus`, or is exactly one of the recognized cover filenames. -/
def can_delete (filename : Str) : Bool :=
  if strEndsWith filename opusInprogExt then true
  else if strEndsWith filename opusExt then true
  else if cover_names.contains filename then true
  else false

/-- The deletion pass of `sync_dirs` (lines 321-324): remove every
destination file whose name is not in `destset` and passes `can_delete`. -/
def remove_actions (srcfiles destfiles : List File) : List Action :=
  (destfiles.filter (fun f =>
    !(destset_of srcfiles).contains f.name && can_delete f.name)).map
    (fun f => Action.remove f.path)

/-- `sync_dirs` (opusdir.py lines 284-335): the directory reconciler.
Plans transcodes, then at most one cover copy, then (in delete mode) file
removals, then removes the destination directory itself when something was
deleted and nothing is being kept or created (`if actions and not destset`).
The `srcdir` argument is unused by the Python function as well. -/
def sync_dirs (srcdir destdir : Str) (srcfiles destfiles : List File)
    (delete : Bool) : List Action :=
  let base := transcode_actions destdir destfiles srcfiles
    ++ cover_actions destdir destfiles srcfiles
  if delete then
    let acts := base ++ remove_actions srcfiles destfiles
    if !acts.isEmpty && (destset_of srcfiles).isEmpty then
      acts ++ [Action.rmdir destdir]
    else acts
  else base

/-- Kind discriminators for `Action`. -/
def Action.isTranscode : Action → Bool
  | .transcode _ _ => true
  | _ => false

def Action.isCopy : Action → Bool
  | .copy _ _ => true
  | _ => false

def Action.isRemove : Action → Bool
  | .remove _ => true
  | _ => false

def Action.isRmdir : Action → Bool
  | .rmdir _ => true
  | _ => false

/-- The source path carried by an action (Python's `filepath` field;
empty for the path-only actions). -/
def Action.srcOf : Action → Str
  | .transcode f _ => f
  | .copy f _ => f
  | _ => []

/-- The destination path carried by an action. -/
def Action.destOf : Action → Str
  | .transcode _ d => d
  | .copy _ d => d
  | .mkdir d => d
  | .remove d => d
  | .rmdir d => d

/-- Rank of an action kind in the order `sync_dirs` emits them. -/
def Action.rank : Action → Nat
  | .transcode _ _ => 0
  | .copy _ _ => 1
  | .remove _ => 2
  | .rmdir _ => 3
  | .mkdir _ => 4

/-- Well-formedness of a `File` relative to the directory it was listed in:
`get_files` (lines 167-182) constructs `filepath = joinpath(dir, filename)`,
which for a normalized directory path not ending in a separator is
`dir + "/" + filename`. -/
def wf_file (dir : Str) (f : File) : Prop := f.path = dir ++ '/' :: f.name

instance (dir : Str) (f : File) : Decidable (wf_file dir f) :=
  inferInstanceAs (Decidable (f.path = dir ++ '/' :: f.name))

/-! ## Basic lemmas about the reconciler -/

theorem mapLookup_some {l : List File} {n : Str} {f : File}
    (h : mapLookup l n = some f) : f ∈ l ∧ f.name = n := by
  induction l with
  | nil => simp [mapLookup] at h
  | cons g rest ih =>
    rw [mapLookup] at h
    cases hr : mapLookup rest n with
    | some g2 =>
      rw [hr] at h
      cases h
      have := ih hr
      exact ⟨List.mem_cons_of_mem _ this.1, this.2⟩
    | none =>
      rw [hr] at h
      by_cases hn : g.name = n
      · rw [if_pos hn] at h
        cases h
        exact ⟨List.mem_cons_self _ _, hn⟩
      · rw [if_neg hn] at h
        cases h

theorem mapLookup_eq_none_iff {l : List File} {n : Str} :
    mapLookup l n = none ↔ ∀ f ∈ l, f.name ≠ n := by
  induction l with
  | nil => simp [mapLookup]
  | cons g rest ih =>
    rw [mapLookup]
    cases hr : mapLookup rest n with
    | some g2 =>
      have hg2 := mapLookup_some hr
      constructor
      · intro h0
        exact Option.noConfusion h0
      · intro hall
        exact absurd hg2.2 (hall g2 (List.mem_cons_of_mem _ hg2.1))
    | none =>
      have hrest := ih.mp hr
      by_cases hn : g.name = n
      · rw [if_pos hn]
        constructor
        · intro h0
          exact Option.noConfusion h0
        · intro hall
          exact absurd hn (hall g (List.mem_cons_self _ _))
      · rw [if_neg hn]
        constructor
        · intro _ f hf
          rcases List.mem_cons.mp hf with rfl | hf2
          · exact hn
          · exact hrest f hf2
        · intro _
          rfl

theorem mapLookup_of_nodup {l : List File} {n : Str} {f : File}
    (hnd : (l.map File.name).Nodup) (hf : f ∈ l) (hn : f.name = n) :
    mapLookup l n = some f := by
  induction l with
  | nil => cases hf
  | cons g rest ih =>
    rw [List.map_cons, List.nodup_cons] at hnd
    rw [mapLookup]
    rcases List.mem_cons.mp hf with rfl | hf
    · have hnone : mapLookup rest n = none := by
        rw [mapLookup_eq_none_iff]
        intro h hh hcon
        exact hnd.1 (hn ▸ hcon ▸ List.mem_map_of_mem File.name hh)
      rw [hnone, if_pos hn]
    · rw [ih hnd.2 hf]

/-- The freshness test, under distinct destination names, is: no destination
file of that name exists, or the one that does is strictly older. -/
theorem fresh_iff {dst : List File} (hnd : (dst.map File.name).Nodup)
    (n : Str) (m : Int) :
    fresh dst n m = true ↔
      (∀ d ∈ dst, d.name ≠ n) ∨ ∃ d ∈ dst, d.name = n ∧ d.mtime < m := by
  rw [fresh]
  cases h : mapLookup dst n with
  | none => simpa using Or.inl (mapLookup_eq_none_iff.mp h)
  | some d =>
    have hd := mapLookup_some h
    simp only [decide_eq_true_eq]
    constructor
    · intro hlt
      exact Or.inr ⟨d, hd.1, hd.2, hlt⟩
    · rintro (hall | ⟨d2, hmem, hname, hlt⟩)
      · exact absurd hd.2 (hall d hd.1)
      · have : d2 = d :=
          List.inj_on_of_nodup_map hnd hmem hd.1 (hname.trans hd.2.symm)
        exact this ▸ hlt

theorem mem_transcode_actions {destdir : Str} {dst src : List File} {a : Action} :
    a ∈ transcode_actions destdir dst src ↔
      ∃ f ∈ src, strEndsWith f.path flacExt = true ∧
        fresh dst (replace_ext f.name flacExt opusExt) f.mtime = true ∧
        a = Action.transcode f.path
              (joinpath destdir (replace_ext f.name flacExt opusExt)) := by
  rw [transcode_actions, List.mem_filterMap]
  constructor
  · rintro ⟨f, hf, heq⟩
    by_cases h1 : strEndsWith f.path flacExt = true
    · rw [if_pos h1] at heq
      by_cases h2 : fresh dst (replace_ext f.name flacExt opusExt) f.mtime = true
      · rw [if_pos h2] at heq
        exact ⟨f, hf, h1, h2, (Option.some_inj.mp heq).symm⟩
      · rw [if_neg h2] at heq
        exact Option.noConfusion heq
    · rw [if_neg h1] at heq
      exact Option.noConfusion heq
  · rintro ⟨f, hf, h1, h2, rfl⟩
    exact ⟨f, hf, by rw [if_pos h1, if_pos h2]⟩

theorem mem_cover_actions {destdir : Str} {dst src : List File} {a : Action} :
    a ∈ cover_actions destdir dst src ↔
      ∃ name f, find_cover src = some (name, f) ∧ fresh dst name f.mtime = true ∧
        a = Action.copy f.path (joinpath destdir f.name) := by
  unfold cover_actions
  cases h : find_cover src with
  | none =>
    simp only [List.not_mem_nil, false_iff]
    rintro ⟨name, f, hf, -⟩
    exact Option.noConfusion hf
  | some nf =>
    obtain ⟨name, f⟩ := nf
    dsimp only
    split_ifs with hfr
    · constructor
      · intro ha
        rw [List.mem_singleton] at ha
        exact ⟨name, f, rfl, hfr, ha⟩
      · rintro ⟨name2, f2, hf2, -, rfl⟩
        injection hf2 with hp
        injection hp with h1 h2
        subst h2
        exact List.mem_singleton.mpr rfl
    · simp only [List.not_mem_nil, false_iff]
      rintro ⟨name2, f2, hf2, hfr2, -⟩
      injection hf2 with hp
      injection hp with h1 h2
      subst h1
      subst h2
      exact hfr hfr2

theorem mem_remove_actions {src dst : List File} {a : Action} :
    a ∈ remove_actions src dst ↔
      ∃ f ∈ dst, (destset_of src).contains f.name = false ∧
        can_delete f.name = true ∧ a = Action.remove f.path := by
  rw [remove_actions]
  simp only [List.mem_map, List.mem_filter, Bool.and_eq_true, Bool.not_eq_true']
  constructor
  · rintro ⟨f, ⟨hf, hds, hcd⟩, rfl⟩
    exact ⟨f, hf, hds, hcd, rfl⟩
  · rintro ⟨f, hf, hds, hcd, rfl⟩
    exact ⟨f, ⟨hf, hds, hcd⟩, rfl⟩

/-- `sync_dirs` with deletion disabled is just the transcode and cover passes. -/
theorem sync_dirs_false (srcdir destdir : Str) (src dst : List File) :
    sync_dirs srcdir destdir src dst false
      = transcode_actions destdir dst src ++ cover_actions destdir dst src := rfl

/-- `sync_dirs` with deletion enabled, unfolded. -/
theorem sync_dirs_true (srcdir destdir : Str) (src dst : List File) :
    sync_dirs srcdir destdir src dst true
      = if !(transcode_actions destdir dst src ++ cover_actions destdir dst src
             ++ remove_actions src dst).isEmpty && (destset_of src).isEmpty then
          transcode_actions destdir dst src ++ cover_actions destdir dst src
            ++ remove_actions src dst ++ [Action.rmdir destdir]
        else
          transcode_actions destdir dst src ++ cover_actions destdir dst src
            ++ remove_actions src dst := rfl

/-- Global membership decomposition for `sync_dirs`. -/
theorem mem_sync_dirs {srcdir destdir : Str} {src dst : List File}
    {delete : Bool} {a : Action} :
    a ∈ sync_dirs srcdir destdir src dst delete ↔
      (a ∈ transcode_actions destdir dst src
       ∨ a ∈ cover_actions destdir dst src
       ∨ (delete = true ∧ a ∈ remove_actions src dst)
       ∨ (delete = true ∧ a = Action.rmdir destdir
          ∧ (destset_of src).isEmpty = true
          ∧ transcode_actions destdir dst src ++ cover_actions destdir dst src
              ++ remove_actions src dst ≠ [])) := by
  cases delete with
  | false =>
    rw [sync_dirs_false, List.mem_append]
    simp
  | true =>
    rw [sync_dirs_true]
    split_ifs with hg
    · rw [Bool.and_eq_true, Bool.not_eq_true'] at hg
      have hne2 : transcode_actions destdir dst src ++ cover_actions destdir dst src
          ++ remove_actions src dst ≠ [] := List.isEmpty_eq_false.mp hg.1
      rw [List.mem_append, List.mem_append, List.mem_append, List.mem_singleton]
      constructor
      · rintro (((ht | hc) | hr) | rfl)
        · exact Or.inl ht
        · exact Or.inr (Or.inl hc)
        · exact Or.inr (Or.inr (Or.inl ⟨rfl, hr⟩))
        · exact Or.inr (Or.inr (Or.inr ⟨rfl, rfl, hg.2, hne2⟩))
      · rintro (ht | hc | ⟨-, hr⟩ | ⟨-, rfl, -, -⟩)
        · exact Or.inl (Or.inl (Or.inl ht))
        · exact Or.inl (Or.inl (Or.inr hc))
        · exact Or.inl (Or.inr hr)
        · exact Or.inr rfl
    · rw [List.mem_append, List.mem_append]
      constructor
      · rintro ((ht | hc) | hr)
        · exact Or.inl ht
        · exact Or.inr (Or.inl hc)
        · exact Or.inr (Or.inr (Or.inl ⟨rfl, hr⟩))
      · rintro (ht | hc | ⟨-, hr⟩ | ⟨-, rfl, hds, hne⟩)
        · exact Or.inl (Or.inl ht)
        · exact Or.inl (Or.inr hc)
        · exact Or.inr hr
        · exfalso
          apply hg
          rw [Bool.and_eq_true, Bool.not_eq_true']
          exact ⟨List.isEmpty_eq_false.mpr hne, hds⟩

/-! ## Shape and filtering lemmas -/

theorem transcode_actions_shape {destdir : Str} {dst src : List File} {a : Action}
    (h : a ∈ transcode_actions destdir dst src) : a.isTranscode = true := by
  obtain ⟨f, -, -, -, rfl⟩ := mem_transcode_actions.mp h
  rfl

theorem cover_actions_shape {destdir : Str} {dst src : List File} {a : Action}
    (h : a ∈ cover_actions destdir dst src) : a.isCopy = true := by
  obtain ⟨name, f, -, -, rfl⟩ := mem_cover_actions.mp h
  rfl

theorem remove_actions_shape {src dst : List File} {a : Action}
    (h : a ∈ remove_actions src dst) : a.isRemove = true := by
  obtain ⟨f, -, -, -, rfl⟩ := mem_remove_actions.mp h
  rfl

theorem filter_isCopy_sync_dirs (srcdir destdir : Str) (src dst : List File)
    (delete : Bool) :
    (sync_dirs srcdir destdir src dst delete).filter Action.isCopy
      = cover_actions destdir dst src := by
  have hT : (transcode_actions destdir dst src).filter Action.isCopy = [] := by
    rw [List.filter_eq_nil_iff]
    intro a ha hc
    obtain ⟨f, -, -, -, rfl⟩ := mem_transcode_actions.mp ha
    exact Bool.noConfusion hc
  have hC : (cover_actions destdir dst src).filter Action.isCopy
      = cover_actions destdir dst src :=
    List.filter_eq_self.mpr (fun a ha => cover_actions_shape ha)
  have hR : (remove_actions src dst).filter Action.isCopy = [] := by
    rw [List.filter_eq_nil_iff]
    intro a ha hc
    obtain ⟨f, -, -, -, rfl⟩ := mem_remove_actions.mp ha
    exact Bool.noConfusion hc
  have hD : ([Action.rmdir destdir]).filter Action.isCopy = [] := rfl
  cases delete with
  | false =>
    rw [sync_dirs_false, List.filter_append, hT, hC, List.nil_append]
  | true =>
    rw [sync_dirs_true]
    split_ifs with hg
    · rw [List.filter_append, List.filter_append, List.filter_append, hT, hC, hR, hD]
      simp
    · rw [List.filter_append, List.filter_append, hT, hC, hR]
      simp

theorem filter_isTranscode_sync_dirs (srcdir destdir : Str) (src dst : List File)
    (delete : Bool) :
    (sync_dirs srcdir destdir src dst delete).filter Action.isTranscode
      = transcode_actions destdir dst src := by
  have hT : (transcode_actions destdir dst src).filter Action.isTranscode
      = transcode_actions destdir dst src :=
    List.filter_eq_self.mpr (fun a ha => transcode_actions_shape ha)
  have hC : (cover_actions destdir dst src).filter Action.isTranscode = [] := by
    rw [List.filter_eq_nil_iff]
    intro a ha hc
    obtain ⟨name, f, -, -, rfl⟩ := mem_cover_actions.mp ha
    exact Bool.noConfusion hc
  have hR : (remove_actions src dst).filter Action.isTranscode = [] := by
    rw [List.filter_eq_nil_iff]
    intro a ha hc
    obtain ⟨f, -, -, -, rfl⟩ := mem_remove_actions.mp ha
    exact Bool.noConfusion hc
  have hD : ([Action.rmdir destdir]).filter Action.isTranscode = [] := rfl
  cases delete with
  | false =>
    rw [sync_dirs_false, List.filter_append, hT, hC, List.append_nil]
  | true =>
    rw [sync_dirs_true]
    split_ifs with hg
    · rw [List.filter_append, List.filter_append, List.filter_append, hT, hC, hR, hD]
      simp
    · rw [List.filter_append, List.filter_append, hT, hC, hR]
      simp

theorem filter_isRemove_sync_dirs (srcdir destdir : Str) (src dst : List File)
    (delete : Bool) :
    (sync_dirs srcdir destdir src dst delete).filter Action.isRemove
      = if delete then remove_actions src dst else [] := by
  have hT : (transcode_actions destdir dst src).filter Action.isRemove = [] := by
    rw [List.filter_eq_nil_iff]
    intro a ha hc
    obtain ⟨f, -, -, -, rfl⟩ := mem_transcode_actions.mp ha
    exact Bool.noConfusion hc
  have hC : (cover_actions destdir dst src).filter Action.isRemove = [] := by
    rw [List.filter_eq_nil_iff]
    intro a ha hc
    obtain ⟨name, f, -, -, rfl⟩ := mem_cover_actions.mp ha
    exact Bool.noConfusion hc
  have hR : (remove_actions src dst).filter Action.isRemove = remove_actions src dst :=
    List.filter_eq_self.mpr (fun a ha => remove_actions_shape ha)
  have hD : ([Action.rmdir destdir]).filter Action.isRemove = [] := rfl
  cases delete with
  | false =>
    rw [sync_dirs_false, List.filter_append, hT, hC, List.append_nil, if_neg]
    exact Bool.noConfusion
  | true =>
    rw [sync_dirs_true, if_pos rfl]
    split_ifs with hg
    · rw [List.filter_append, List.filter_append, List.filter_append, hT, hC, hR, hD]
      simp
    · rw [List.filter_append, List.filter_append, hT, hC, hR]
      simp

/-- The deletion-safety predicate, written as the disjunction the spec uses. -/
theorem can_delete_eq (n : Str) :
    can_delete n = (strEndsWith n opusExt || strEndsWith n opusInprogExt
      || cover_names.contains n) := by
  unfold can_delete
  split_ifs with h1 h2 h3
  · rw [h1]
    simp
  · rw [h2]
    simp
  · rw [h3]
    simp
  · simp only [Bool.not_eq_true] at h1 h2 h3
    rw [h1, h2, h3]
    rfl

/-- A well-formed file whose name ends in `.flac` has a path ending in
`.flac` (the reconciler tests the path, opusdir.py line 296). -/
theorem wf_path_endsWith {dir : Str} {f : File} (hwf : wf_file dir f)
    (h : strEndsWith f.name flacExt = true) : strEndsWith f.path flacExt = true := by
  rw [strEndsWith, List.isSuffixOf_iff_suffix] at h ⊢
  have hsuf : f.name <:+ f.path := by
    refine ⟨dir ++ [ '/' ], ?_⟩
    rw [hwf, List.append_assoc]
    rfl
  exact h.trans hsuf

/-- Mapping over a `filterMap` whose output projects back to the input is a
sublist of mapping over the input: the planned actions follow input order. -/
theorem filterMap_map_sublist {α β γ : Type} (g : α → Option β) (h : β → γ)
    (k : α → γ) (hc : ∀ a b, g a = some b → h b = k a) :
    ∀ l : List α, ((l.filterMap g).map h).Sublist (l.map k) := by
  intro l
  induction l with
  | nil => simp
  | cons a l ih =>
    rw [List.filterMap_cons]
    cases hg : g a with
    | none =>
      rw [List.map_cons]
      exact List.Sublist.cons _ ih
    | some b =>
      rw [List.map_cons, List.map_cons, hc a b hg]
      exact List.Sublist.cons₂ _ ih

theorem pairwise_rank_const {l : List Action} {r : Nat}
    (h : ∀ a ∈ l, Action.rank a = r) :
    List.Pairwise (fun a b => a.rank ≤ b.rank) l :=
  List.pairwise_of_forall_mem_list (fun a ha b hb => by rw [h a ha, h b hb])

/-! ## Concrete inputs used by the witness theorems -/

def sampleSrcdir : Str := "a".toList

def sampleDestdir : Str := "b".toList

def c1flacFile : File := ⟨"a/foo.flac".toList, "foo.flac".toList, 3⟩

def c1src : List File := [c1flacFile]

def c1opusFile : File := ⟨"b/foo.opus".toList, "foo.opus".toList, 1⟩

def c1dst : List File := [c1opusFile]

def c2opusFile : File := ⟨"b/stale.opus".toList, "stale.opus".toList, 0⟩

def c2dst : List File := [c2opusFile]

def c4flacFile : File := ⟨"a/foo.flac".toList, "foo.flac".toList, 1⟩

def c4src : List File := [c4flacFile]

def c4opusFile : File := ⟨"b/foo.opus".toList, "foo.opus".toList, 5⟩

def c4dst : List File := [c4opusFile]

/-! ## Claim theorems for the reconciler -/

/-- C1: for a source file whose name ends in `.flac`, the planned transcode
destination name is the source name with `.flac` replaced by `.opus`, and the
transcode action is emitted iff no destination file of that name exists or
the existing one is strictly older than the source; the same freshness rule
governs the cover copy action. -/
theorem sync_dirs_flac_naming_freshness (srcdir destdir : Str)
    (src dst : List File) (delete : Bool) (f : File)
    (hwf : ∀ g ∈ src, wf_file srcdir g)
    (hnds : (src.map File.name).Nodup)
    (hndd : (dst.map File.name).Nodup)
    (hf : f ∈ src)
    (hname : strEndsWith f.name flacExt = true) :
    replace_ext f.name flacExt opusExt
        = f.name.take (f.name.length - flacExt.length) ++ opusExt
    ∧ (Action.transcode f.path (joinpath destdir (replace_ext f.name flacExt opusExt))
         ∈ sync_dirs srcdir destdir src dst delete
       ↔ ((∀ d ∈ dst, d.name ≠ replace_ext f.name flacExt opusExt)
          ∨ ∃ d ∈ dst, d.name = replace_ext f.name flacExt opusExt
              ∧ d.mtime < f.mtime))
    ∧ (∀ name g, find_cover src = some (name, g) →
        (Action.copy g.path (joinpath destdir g.name)
           ∈ sync_dirs srcdir destdir src dst delete
         ↔ ((∀ d ∈ dst, d.name ≠ name)
            ∨ ∃ d ∈ dst, d.name = name ∧ d.mtime < g.mtime))) := by
  refine ⟨?_, ?_, ?_⟩
  · unfold replace_ext
    rw [if_pos hname]
  · constructor
    · intro hmem
      rcases mem_sync_dirs.mp hmem with ht | hc | ⟨-, hr⟩ | ⟨-, he, -, -⟩
      · obtain ⟨g, hg, hgp, hgfr, heq⟩ := mem_transcode_actions.mp ht
        injection heq with hp hd
        have hn : File.name g = File.name f := by
          have h1 : srcdir ++ '/' :: f.name = srcdir ++ '/' :: g.name := by
            rw [← hwf f hf, ← hwf g hg]
            exact hp
          have h2 := List.append_cancel_left h1
          injection h2 with hc1 hc2
          exact hc2.symm
        have : g = f := List.inj_on_of_nodup_map hnds hg hf hn
        subst this
        exact (fresh_iff hndd _ _).mp hgfr
      · obtain ⟨name, g, -, -, heq⟩ := mem_cover_actions.mp hc
        exact Action.noConfusion heq
      · obtain ⟨g, -, -, -, heq⟩ := mem_remove_actions.mp hr
        exact Action.noConfusion heq
      · exact Action.noConfusion he
    · intro hcond
      apply mem_sync_dirs.mpr
      refine Or.inl (mem_transcode_actions.mpr ?_)
      exact ⟨f, hf, wf_path_endsWith (hwf f hf) hname,
        (fresh_iff hndd _ _).mpr hcond, rfl⟩
  · intro name g hfc
    constructor
    · intro hmem
      rcases mem_sync_dirs.mp hmem with ht | hc | ⟨-, hr⟩ | ⟨-, he, -, -⟩
      · obtain ⟨g2, -, -, -, heq⟩ := mem_transcode_actions.mp ht
        exact Action.noConfusion heq
      · obtain ⟨name2, g2, hfc2, hfr2, -⟩ := mem_cover_actions.mp hc
        rw [hfc] at hfc2
        injection hfc2 with hp
        injection hp with h1 h2
        subst h1
        subst h2
        exact (fresh_iff hndd _ _).mp hfr2
      · obtain ⟨g2, -, -, -, heq⟩ := mem_remove_actions.mp hr
        exact Action.noConfusion heq
      · exact Action.noConfusion he
    · intro hcond
      apply mem_sync_dirs.mpr
      refine Or.inr (Or.inl (mem_cover_actions.mpr ?_))
      exact ⟨name, g, hfc, (fresh_iff hndd _ _).mpr hcond, rfl⟩

theorem sync_dirs_flac_naming_freshness_witness :
    Action.transcode c1flacFile.path
        (joinpath sampleDestdir (replace_ext c1flacFile.name flacExt opusExt))
      ∈ sync_dirs sampleSrcdir sampleDestdir c1src c1dst false := by
  have h := sync_dirs_flac_naming_freshness sampleSrcdir sampleDestdir c1src c1dst
    false c1flacFile (by decide) (by decide) (by decide) (by decide) (by decide)
  exact h.2.1.mpr (Or.inr ⟨c1opusFile, by decide, by decide, by decide⟩)

/-- C2: a `remove` is planned only for a destination file whose name is not in
the destination-knowledge set and satisfies the deletion-safety predicate
(it ends with `.opus`, ends with `.opus.partial`, or is a recognized cover
name); nothing else is ever the target of a `remove`. -/
theorem sync_dirs_remove_safety (srcdir destdir : Str) (src dst : List File)
    (delete : Bool) (p : Str)
    (h : Action.remove p ∈ sync_dirs srcdir destdir src dst delete) :
    delete = true ∧ ∃ f ∈ dst, f.path = p
      ∧ (destset_of src).contains f.name = false
      ∧ (strEndsWith f.name opusExt || strEndsWith f.name opusInprogExt
          || cover_names.contains f.name) = true := by
  rcases mem_sync_dirs.mp h with ht | hc | ⟨hd, hr⟩ | ⟨-, he, -, -⟩
  · obtain ⟨f, -, -, -, heq⟩ := mem_transcode_actions.mp ht
    exact Action.noConfusion heq
  · obtain ⟨name, f, -, -, heq⟩ := mem_cover_actions.mp hc
    exact Action.noConfusion heq
  · obtain ⟨f, hf, hds, hcd, heq⟩ := mem_remove_actions.mp hr
    injection heq with hp
    exact ⟨hd, f, hf, hp.symm, hds, by rw [← can_delete_eq]; exact hcd⟩
  · exact Action.noConfusion he

theorem sync_dirs_remove_safety_witness :
    true = true ∧ ∃ f ∈ c2dst, f.path = "b/stale.opus".toList
      ∧ (destset_of []).contains f.name = false
      ∧ (strEndsWith f.name opusExt || strEndsWith f.name opusInprogExt
          || cover_names.contains f.name) = true :=
  sync_dirs_remove_safety sampleSrcdir sampleDestdir [] c2dst true
    ("b/stale.opus".toList) (by decide)

/-- C4: if every destination file a source file would produce already exists
at least as new as its source, the reconciler plans no transcode and no copy
work. -/
theorem sync_dirs_idempotent (srcdir destdir : Str) (src dst : List File)
    (delete : Bool)
    (hflac : ∀ f ∈ src, strEndsWith f.path flacExt = true →
      ∃ d, mapLookup dst (replace_ext f.name flacExt opusExt) = some d
        ∧ f.mtime ≤ d.mtime)
    (hcov : ∀ name f, find_cover src = some (name, f) →
      ∃ d, mapLookup dst name = some d ∧ f.mtime ≤ d.mtime) :
    (sync_dirs srcdir destdir src dst delete).filter
      (fun a => a.isTranscode || a.isCopy) = [] := by
  rw [List.filter_eq_nil_iff]
  intro a ha hk
  rcases mem_sync_dirs.mp ha with ht | hc | ⟨-, hr⟩ | ⟨-, rfl, -, -⟩
  · obtain ⟨f, hf, hp, hfr, rfl⟩ := mem_transcode_actions.mp ht
    obtain ⟨d, hd, hle⟩ := hflac f hf hp
    unfold fresh at hfr
    rw [hd] at hfr
    simp only [decide_eq_true_eq] at hfr
    exact absurd hfr (not_lt.mpr hle)
  · obtain ⟨name, f, hfc, hfr, rfl⟩ := mem_cover_actions.mp hc
    obtain ⟨d, hd, hle⟩ := hcov name f hfc
    unfold fresh at hfr
    rw [hd] at hfr
    simp only [decide_eq_true_eq] at hfr
    exact absurd hfr (not_lt.mpr hle)
  · obtain ⟨f, -, -, -, rfl⟩ := mem_remove_actions.mp hr
    exact Bool.noConfusion hk
  · exact Bool.noConfusion hk

theorem sync_dirs_idempotent_witness :
    (sync_dirs sampleSrcdir sampleDestdir c4src c4dst true).filter
      (fun a => a.isTranscode || a.isCopy) = [] := by
  apply sync_dirs_idempotent
  · intro f hf hp
    rcases List.mem_singleton.mp hf with rfl
    exact ⟨c4opusFile, by decide, by decide⟩
  · intro name f hfc
    rw [show find_cover c4src = none from by decide] at hfc
    exact Option.noConfusion hfc

/-- C6: with deletion disabled, the reconciler plans no `remove` and no
`rmdir` actions, regardless of the inputs. -/
theorem sync_dirs_no_delete_when_disabled (srcdir destdir : Str)
    (src dst : List File) :
    (sync_dirs srcdir destdir src dst false).filter
      (fun a => a.isRemove || a.isRmdir) = [] := by
  rw [sync_dirs_false, List.filter_append]
  have hT : (transcode_actions destdir dst src).filter
      (fun a => a.isRemove || a.isRmdir) = [] := by
    rw [List.filter_eq_nil_iff]
    intro a ha hc
    obtain ⟨f, -, -, -, rfl⟩ := mem_transcode_actions.mp ha
    exact Bool.noConfusion hc
  have hC : (cover_actions destdir dst src).filter
      (fun a => a.isRemove || a.isRmdir) = [] := by
    rw [List.filter_eq_nil_iff]
    intro a ha hc
    obtain ⟨name, f, -, -, rfl⟩ := mem_cover_actions.mp ha
    exact Bool.noConfusion hc
  rw [hT, hC, List.append_nil]

/-- C5: with deletion enabled, no source files, and destination files that
all satisfy the deletion-safety predicate, the plan is exactly one `remove`
per destination file followed by one `rmdir`; and in general a `rmdir` is
planned only when a `remove` was planned and the destination-knowledge set
ended up empty. -/
theorem sync_dirs_dir_emptying (srcdir destdir : Str) (src dst : List File)
    (delete : Bool) :
    ((delete = true ∧ src = [] ∧ dst ≠ [] ∧ ∀ f ∈ dst, can_delete f.name = true) →
      sync_dirs srcdir destdir src dst delete
        = dst.map (fun f => Action.remove f.path) ++ [Action.rmdir destdir])
    ∧ (∀ p, Action.rmdir p ∈ sync_dirs srcdir destdir src dst delete →
        delete = true ∧ destset_of src = []
        ∧ ∃ q, Action.remove q ∈ sync_dirs srcdir destdir src dst delete) := by
  constructor
  · rintro ⟨rfl, rfl, hne, hall⟩
    have hT : transcode_actions destdir dst [] = [] := rfl
    have hC : cover_actions destdir dst [] = [] := rfl
    have hR : remove_actions [] dst = dst.map (fun f => Action.remove f.path) := by
      unfold remove_actions
      rw [List.filter_eq_self.mpr]
      intro f hf
      have hcontains : (destset_of ([] : List File)).contains f.name = false := rfl
      rw [hcontains, hall f hf]
      rfl
    have hmap : (dst.map (fun f => Action.remove f.path)).isEmpty = false := by
      rw [List.isEmpty_eq_false]
      intro h0
      exact hne (List.map_eq_nil_iff.mp h0)
    rw [sync_dirs_true, hT, hC, hR]
    simp only [List.nil_append]
    rw [show destset_of ([] : List File) = [] from rfl, hmap]
    rfl
  · intro p hp
    rcases mem_sync_dirs.mp hp with ht | hc | ⟨-, hr⟩ | ⟨hd, heq, hds, hne⟩
    · obtain ⟨f, -, -, -, he2⟩ := mem_transcode_actions.mp ht
      exact Action.noConfusion he2
    · obtain ⟨name, f, -, -, he2⟩ := mem_cover_actions.mp hc
      exact Action.noConfusion he2
    · obtain ⟨f, -, -, -, he2⟩ := mem_remove_actions.mp hr
      exact Action.noConfusion he2
    · have hds2 : destset_of src = [] := List.isEmpty_iff.mp hds
      refine ⟨hd, hds2, ?_⟩
      have hflacds : flac_destset src = [] := (List.append_eq_nil.mp hds2).1
      have hcovds : cover_destset src = [] := (List.append_eq_nil.mp hds2).2
      have hT : transcode_actions destdir dst src = [] := by
        rw [transcode_actions, List.filterMap_eq_nil_iff]
        intro f hf
        have h0 := List.filterMap_eq_nil_iff.mp hflacds f hf
        by_cases hp2 : strEndsWith f.path flacExt = true
        · rw [if_pos hp2] at h0
          exact Option.noConfusion h0
        · rw [if_neg hp2]
      have hC : cover_actions destdir dst src = [] := by
        unfold cover_actions
        unfold cover_destset at hcovds
        cases hfc : find_cover src with
        | none => rfl
        | some nf =>
          obtain ⟨n2, f2⟩ := nf
          rw [hfc] at hcovds
          exact absurd hcovds (by simp)
      rw [hT, hC] at hne
      simp only [List.nil_append] at hne
      obtain ⟨a, ha⟩ := List.exists_mem_of_ne_nil _ hne
      obtain ⟨f, hf, h1, h2, rfl⟩ := mem_remove_actions.mp ha
      exact ⟨f.path, mem_sync_dirs.mpr (Or.inr (Or.inr (Or.inl ⟨hd, ha⟩)))⟩

def c5dstA : File := ⟨"b/foo.opus".toList, "foo.opus".toList, 0⟩

def c5dstB : File := ⟨"b/bar.opus.partial".toList, "bar.opus.partial".toList, 0⟩

def c5dstC : File := ⟨"b/cover.jpg".toList, "cover.jpg".toList, 0⟩

def c5dst : List File := [c5dstA, c5dstB, c5dstC]

theorem sync_dirs_dir_emptying_witness :
    sync_dirs sampleSrcdir sampleDestdir [] c5dst true
      = c5dst.map (fun f => Action.remove f.path) ++ [Action.rmdir sampleDestdir] :=
  (sync_dirs_dir_emptying sampleSrcdir sampleDestdir [] c5dst true).1
    ⟨rfl, rfl, by decide, by decide⟩

def c7jpgFile : File := ⟨"a/cover.jpg".toList, "cover.jpg".toList, 0⟩

def c7pngFile : File := ⟨"a/cover.png".toList, "cover.png".toList, 0⟩

def c7src : List File := [c7jpgFile, c7pngFile]

def c7dst : List File := [⟨"b/cover.jpg".toList, "cover.jpg".toList, 5⟩]

/-- C7 (counterexample): the claim "when the source file list contains two or
more recognized cover filenames, exactly one Copy action is produced" fails:
here both cover names are present among the sources, but the destination
already holds a cover at least as new, so no `copy` is planned at all. -/
theorem sync_dirs_cover_exactly_one_cex :
    (∃ f ∈ c7src, f.name = coverJpg) ∧ (∃ f ∈ c7src, f.name = coverPng)
    ∧ ¬ ((sync_dirs sampleSrcdir sampleDestdir c7src c7dst false).filter
          Action.isCopy).length = 1 := by decide

/-- C7 (amended): at most one `copy` action is ever planned; when the source
list contains both recognized cover filenames, the higher-priority
`cover.jpg` is selected, and exactly one `copy` (for `cover.jpg`) is planned
iff the destination has no file of that name or a strictly older one —
otherwise none is planned. -/
theorem sync_dirs_cover_priority (srcdir destdir : Str) (src dst : List File)
    (delete : Bool) :
    ((sync_dirs srcdir destdir src dst delete).filter Action.isCopy).length ≤ 1
    ∧ ∀ f, mapLookup src coverJpg = some f → (∃ g ∈ src, g.name = coverPng) →
        (sync_dirs srcdir destdir src dst delete).filter Action.isCopy
          = if fresh dst coverJpg f.mtime = true then
              [Action.copy f.path (joinpath destdir f.name)]
            else [] := by
  constructor
  · rw [filter_isCopy_sync_dirs]
    unfold cover_actions
    cases find_cover src with
    | none => simp
    | some nf =>
      obtain ⟨n, f⟩ := nf
      dsimp only
      split_ifs <;> simp
  · intro f hjpg hpng
    rw [filter_isCopy_sync_dirs]
    have hfc : find_cover src = some (coverJpg, f) := by
      unfold find_cover cover_names
      rw [List.findSome?_cons, hjpg]
      rfl
    unfold cover_actions
    rw [hfc]

theorem sync_dirs_cover_priority_witness :
    (sync_dirs sampleSrcdir sampleDestdir c7src [] false).filter Action.isCopy
      = if fresh [] coverJpg c7jpgFile.mtime = true then
          [Action.copy c7jpgFile.path (joinpath sampleDestdir c7jpgFile.name)]
        else [] :=
  (sync_dirs_cover_priority sampleSrcdir sampleDestdir c7src [] false).2
    c7jpgFile (by decide) ⟨c7pngFile, by decide, by decide⟩

/-- C10: the plan is ordered by action kind — transcodes first (in source
list order), then at most one copy, then removes (in destination list
order), with the `rmdir`, when present, last. -/
theorem sync_dirs_action_order (srcdir destdir : Str) (src dst : List File)
    (delete : Bool) :
    List.Pairwise (fun a b => a.rank ≤ b.rank)
      (sync_dirs srcdir destdir src dst delete)
    ∧ ((sync_dirs srcdir destdir src dst delete).filter Action.isCopy).length ≤ 1
    ∧ (((sync_dirs srcdir destdir src dst delete).filter
          Action.isTranscode).map Action.srcOf).Sublist (src.map File.path)
    ∧ (((sync_dirs srcdir destdir src dst delete).filter
          Action.isRemove).map Action.destOf).Sublist (dst.map File.path)
    ∧ ∀ p, Action.rmdir p ∈ sync_dirs srcdir destdir src dst delete →
        ∃ pre, sync_dirs srcdir destdir src dst delete
          = pre ++ [Action.rmdir p] := by
  have hrankT : ∀ a ∈ transcode_actions destdir dst src, Action.rank a = 0 := by
    intro a ha
    obtain ⟨f, -, -, -, rfl⟩ := mem_transcode_actions.mp ha
    rfl
  have hrankC : ∀ a ∈ cover_actions destdir dst src, Action.rank a = 1 := by
    intro a ha
    obtain ⟨name, f, -, -, rfl⟩ := mem_cover_actions.mp ha
    rfl
  have hrankR : ∀ a ∈ remove_actions src dst, Action.rank a = 2 := by
    intro a ha
    obtain ⟨f, -, -, -, rfl⟩ := mem_remove_actions.mp ha
    rfl
  refine ⟨?_, ?_, ?_, ?_, ?_⟩
  · have hTC : List.Pairwise (fun a b => Action.rank a ≤ Action.rank b)
        (transcode_actions destdir dst src ++ cover_actions destdir dst src) := by
      rw [List.pairwise_append]
      exact ⟨pairwise_rank_const hrankT, pairwise_rank_const hrankC,
        fun a ha b hb => by rw [hrankT a ha, hrankC b hb]; exact Nat.zero_le 1⟩
    cases delete with
    | false => rw [sync_dirs_false]; exact hTC
    | true =>
      rw [sync_dirs_true]
      have hTCR : List.Pairwise (fun a b => Action.rank a ≤ Action.rank b)
          (transcode_actions destdir dst src ++ cover_actions destdir dst src
            ++ remove_actions src dst) := by
        rw [List.pairwise_append]
        refine ⟨hTC, pairwise_rank_const hrankR, ?_⟩
        intro a ha b hb
        rw [hrankR b hb]
        rcases List.mem_append.mp ha with ha2 | ha2
        · rw [hrankT a ha2]
          exact Nat.zero_le 2
        · rw [hrankC a ha2]
          exact Nat.le_succ 1
      split_ifs with hg
      · rw [List.pairwise_append]
        refine ⟨hTCR, List.pairwise_singleton _ _, ?_⟩
        intro a ha b hb
        rw [List.mem_singleton.mp hb]
        have hb3 : Action.rank (Action.rmdir destdir) = 3 := rfl
        rw [hb3]
        rcases List.mem_append.mp ha with ha2 | ha2
        · rcases List.mem_append.mp ha2 with ha3 | ha3
          · rw [hrankT a ha3]
            exact Nat.zero_le 3
          · rw [hrankC a ha3]
            omega
        · rw [hrankR a ha2]
          exact Nat.le_succ 2
      · exact hTCR
  · rw [filter_isCopy_sync_dirs]
    unfold cover_actions
    cases find_cover src with
    | none => simp
    | some nf =>
      obtain ⟨n, f⟩ := nf
      dsimp only
      split_ifs <;> simp
  · rw [filter_isTranscode_sync_dirs, transcode_actions]
    refine filterMap_map_sublist _ _ _ ?_ src
    intro f a hfa
    by_cases h1 : strEndsWith f.path flacExt = true
    · rw [if_pos h1] at hfa
      by_cases h2 : fresh dst (replace_ext f.name flacExt opusExt) f.mtime = true
      · rw [if_pos h2] at hfa
        rw [← Option.some_inj.mp hfa]
        rfl
      · rw [if_neg h2] at hfa
        exact Option.noConfusion hfa
    · rw [if_neg h1] at hfa
      exact Option.noConfusion hfa
  · rw [filter_isRemove_sync_dirs]
    cases delete with
    | false => simp
    | true =>
      rw [if_pos rfl]
      unfold remove_actions
      rw [List.map_map]
      have : (Action.destOf ∘ fun f => Action.remove f.path) = File.path := rfl
      rw [this]
      exact (List.filter_sublist dst).map File.path
  · intro p hp
    rcases mem_sync_dirs.mp hp with ht | hc | ⟨-, hr⟩ | ⟨hd, heq, hds, hne⟩
    · obtain ⟨f, -, -, -, he2⟩ := mem_transcode_actions.mp ht
      exact Action.noConfusion he2
    · obtain ⟨name, f, -, -, he2⟩ := mem_cover_actions.mp hc
      exact Action.noConfusion he2
    · obtain ⟨f, -, -, -, he2⟩ := mem_remove_actions.mp hr
      exact Action.noConfusion he2
    · injection heq with hpd
      subst hd
      refine ⟨transcode_actions destdir dst src ++ cover_actions destdir dst src
        ++ remove_actions src dst, ?_⟩
      have hguard : (!(transcode_actions destdir dst src ++ cover_actions destdir dst src
          ++ remove_actions src dst).isEmpty && (destset_of src).isEmpty) = true := by
        rw [Bool.and_eq_true, Bool.not_eq_true']
        exact ⟨List.isEmpty_eq_false.mpr hne, hds⟩
      rw [hpd, sync_dirs_true, if_pos hguard]

def c10dst : List File := [⟨"b/old.opus".toList, "old.opus".toList, 0⟩]

theorem sync_dirs_action_order_witness :
    ∃ pre, sync_dirs sampleSrcdir sampleDestdir [] c10dst true
      = pre ++ [Action.rmdir sampleDestdir] :=
  (sync_dirs_action_order sampleSrcdir sampleDestdir [] c10dst true).2.2.2.2
    sampleDestdir (by decide)

/-! ## Source-set builder (main step 1, opusdir.py lines 53-61) -/

/-- `should_exclude` (opusdir.py lines 139-144): exact membership of the
directory path in the exclusion list; an empty (absent) list excludes
nothing.  Note this tests only exact equality, not prefixes. -/
def should_exclude (dirname : Str) (excludes : List Str) : Bool :=
  if !excludes.isEmpty then
    if excludes.contains dirname then true else false
  else false

/-- `should_include` (opusdir.py lines 146-151): a directory is included in
the source set iff one of its file names ends with `.flac`. -/
def should_include (dirname : Str) (files : List Str) : Bool :=
  files.any (fun f => strEndsWith f flacExt)

/-- A directory tree: the regular file names directly in the directory, and
the named subdirectories. -/
inductive FsTree where
  | node (files : List Str) (subdirs : List (Str × FsTree))

/-- The `os.walk` loop of main step 1 for one source root (opusdir.py lines
53-61), with `fuel` bounding the recursion depth (any fuel exceeding the
tree depth gives the full walk).  Visit `path` top-down; if
`should_exclude` holds, prune the whole subtree (`dirs[:] = []` followed by
`continue`); otherwise record the path when `should_include` holds and
recurse into each subdirectory under `path + "/" + name`. -/
def walk_sources (excludes : List Str) : Nat → Str → FsTree → List Str
  | 0, _, _ => []
  | fuel+1, path, FsTree.node files subdirs =>
    if should_exclude path excludes then []
    else (if should_include path files then [path] else [])
      ++ (subdirs.map (fun c =>
            walk_sources excludes fuel (path ++ '/' :: c.1) c.2)).flatten

/-- A legal directory-entry name: nonempty and without a path separator
(what `os.listdir`/`os.walk` can return). -/
def validName (n : Str) : Bool := !n.isEmpty && !n.any (fun c => c == '/')

/-- All subdirectory names down to the given depth are legal entry names. -/
def validTree : Nat → FsTree → Bool
  | 0, _ => true
  | fuel+1, FsTree.node _ subdirs =>
    subdirs.all (fun c => validName c.1 && validTree fuel c.2)

/-- `underPath p d`: `d` is `p` itself or lies below the directory `p`
(path-prefix followed by a separator). -/
def underPath (p d : Str) : Bool := p == d || (p ++ [ '/' ]).isPrefixOf d

theorem underPath_iff {p d : Str} :
    underPath p d = true ↔ p = d ∨ ∃ s, d = p ++ '/' :: s := by
  rw [underPath, Bool.or_eq_true, beq_iff_eq, List.isPrefixOf_iff_prefix]
  constructor
  · rintro (h | ⟨t, ht⟩)
    · exact Or.inl h
    · refine Or.inr ⟨t, ?_⟩
      rw [← ht, List.append_assoc]
      rfl
  · rintro (h | ⟨s, hs⟩)
    · exact Or.inl h
    · refine Or.inr ⟨s, ?_⟩
      rw [hs, List.append_assoc]
      rfl

theorem underPath_refl (p : Str) : underPath p p = true := by
  rw [underPath_iff]
  exact Or.inl rfl

theorem underPath_trans {a b c : Str} (h1 : underPath a b = true)
    (h2 : underPath b c = true) : underPath a c = true := by
  rw [underPath_iff] at h1 h2 ⊢
  rcases h1 with rfl | ⟨s, rfl⟩
  · exact h2
  · rcases h2 with h2 | ⟨t, ht⟩
    · exact Or.inr ⟨s, h2.symm⟩
    · refine Or.inr ⟨s ++ '/' :: t, ?_⟩
      rw [ht, List.append_assoc]
      rfl

theorem underPath_length {p d : Str} (h : underPath p d = true) :
    p.length ≤ d.length := by
  rw [underPath_iff] at h
  rcases h with rfl | ⟨s, rfl⟩
  · exact Nat.le_refl _
  · rw [List.length_append]
    exact Nat.le_add_right _ _

theorem underPath_antisymm {a b : Str} (h1 : underPath a b = true)
    (h2 : underPath b a = true) : a = b := by
  rw [underPath_iff] at h1 h2
  rcases h1 with rfl | ⟨s, rfl⟩
  · rfl
  · rcases h2 with h2 | ⟨t, ht⟩
    · exact h2.symm
    · exfalso
      have := congrArg List.length ht
      simp [List.length_append] at this

/-- Two ancestors of the same path are comparable: the shorter one is an
ancestor of the longer one. -/
theorem underPath_comparable {a b d : Str} (ha : underPath a d = true)
    (hb : underPath b d = true) (hab : a.length ≤ b.length) :
    underPath a b = true := by
  rw [underPath_iff] at ha hb ⊢
  rcases ha with rfl | ⟨s, rfl⟩
  · rcases hb with rfl | ⟨t, ht⟩
    · exact Or.inl rfl
    · exfalso
      have := congrArg List.length ht
      simp [List.length_append] at this
      omega
  · rcases hb with rfl | ⟨t, ht⟩
    · exact Or.inr ⟨s, rfl⟩
    · -- both a ++ '/'::s = b ++ '/'::t; a is a prefix of b
      have hpa : a <+: (a ++ '/' :: s) := List.prefix_append a ('/' :: s)
      have hpb : b <+: (a ++ '/' :: s) := by
        rw [ht]
        exact List.prefix_append b ('/' :: t)
      rcases List.prefix_or_prefix_of_prefix hpa hpb with hab2 | hba2
      · obtain ⟨rest, hrest⟩ := hab2
        cases rest with
        | nil =>
          rw [List.append_nil] at hrest
          exact Or.inl hrest
        | cons r rest2 =>
          have hr : r = '/' := by
            have h0 : a ++ '/' :: s = a ++ r :: (rest2 ++ '/' :: t) := by
              rw [ht, ← hrest, List.append_assoc]
              rfl
            have h1 := List.append_cancel_left h0
            injection h1 with h2 h3
            exact h2.symm
          refine Or.inr ⟨rest2, ?_⟩
          rw [← hrest, hr]
      · have hba : b.length ≤ a.length := hba2.length_le
        have hlen : b.length = a.length := Nat.le_antisymm hba hab
        have hba3 : b = a := hba2.eq_of_length hlen
        exact Or.inl hba3.symm

theorem mem_excludes_should_exclude {e : Str} {excludes : List Str}
    (h : e ∈ excludes) : should_exclude e excludes = true := by
  unfold should_exclude
  rw [List.isEmpty_eq_false.mpr (List.ne_nil_of_mem h)]
  rw [show excludes.contains e = true from List.elem_iff.mpr h]
  rfl

theorem walk_sources_succ (excludes : List Str) (fuel : Nat) (path : Str)
    (files : List Str) (subdirs : List (Str × FsTree)) :
    walk_sources excludes (fuel+1) path (FsTree.node files subdirs)
      = if should_exclude path excludes then []
        else (if should_include path files then [path] else [])
          ++ (subdirs.map (fun c =>
                walk_sources excludes fuel (path ++ '/' :: c.1) c.2)).flatten := rfl

/-- Every directory the walk records lies at or below the walk root. -/
theorem walk_sources_under (excludes : List Str) :
    ∀ (fuel : Nat) (path : Str) (t : FsTree) (d : Str),
      d ∈ walk_sources excludes fuel path t → underPath path d = true := by
  intro fuel
  induction fuel with
  | zero =>
    intro path t d hd
    cases t with
    | node files subdirs => exact absurd hd (List.not_mem_nil d)
  | succ fuel ih =>
    intro path t d hd
    cases t with
    | node files subdirs =>
      have hsub : d ∈ (subdirs.map (fun c =>
          walk_sources excludes fuel (path ++ '/' :: c.1) c.2)).flatten →
          underPath path d = true := by
        intro h2
        rw [List.mem_flatten] at h2
        obtain ⟨l, hl, hdl⟩ := h2
        rw [List.mem_map] at hl
        obtain ⟨c, hc, rfl⟩ := hl
        exact underPath_trans (underPath_iff.mpr (Or.inr ⟨c.1, rfl⟩))
          (ih (path ++ '/' :: c.1) c.2 d hdl)
      rw [walk_sources_succ] at hd
      split_ifs at hd with hex hinc
      · exact absurd hd (List.not_mem_nil d)
      · rcases List.mem_append.mp hd with h1 | h2
        · rw [List.mem_singleton] at h1
          rw [h1]
          exact underPath_refl path
        · exact hsub h2
      · rw [List.nil_append] at hd
        exact hsub hd

theorem walk_exclusion_aux (excludes : List Str) :
    ∀ (fuel : Nat) (root : Str) (t : FsTree),
      (should_exclude root excludes = true →
        walk_sources excludes fuel root t = [])
      ∧ ∀ d e, validTree fuel t = true → e ∈ excludes →
          underPath e d = true → underPath root e = true →
          d ∉ walk_sources excludes fuel root t := by
  intro fuel
  induction fuel with
  | zero =>
    intro root t
    cases t with
    | node files subdirs =>
      exact ⟨fun _ => rfl, fun d e _ _ _ _ hd => absurd hd (List.not_mem_nil d)⟩
  | succ fuel ih =>
    intro root t
    cases t with
    | node files subdirs =>
      constructor
      · intro hex
        rw [walk_sources_succ, if_pos hex]
      · intro d e hvt he hed hre hd
        have hsub : d ∈ (subdirs.map (fun c =>
            walk_sources excludes fuel (root ++ '/' :: c.1) c.2)).flatten →
            should_exclude root excludes = false → False := by
          intro h2 hex
          rw [List.mem_flatten] at h2
          obtain ⟨l, hl, hdl⟩ := h2
          rw [List.mem_map] at hl
          obtain ⟨c, hc, rfl⟩ := hl
          have hund : underPath (root ++ '/' :: c.1) d = true :=
            walk_sources_under excludes fuel (root ++ '/' :: c.1) c.2 d hdl
          have hvt2 : validName c.1 = true ∧ validTree fuel c.2 = true := by
            rw [validTree] at hvt
            have h0 := List.all_eq_true.mp hvt c hc
            rw [Bool.and_eq_true] at h0
            exact h0
          have hp2e : underPath (root ++ '/' :: c.1) e = true := by
            rcases Nat.le_total (root ++ '/' :: c.1).length e.length with hle | hle
            · exact underPath_comparable hund hed hle
            · have hep2 : underPath e (root ++ '/' :: c.1) = true :=
                underPath_comparable hed hund hle
              rcases underPath_iff.mp hep2 with heq | ⟨s, hs⟩
              · rw [heq]
                exact underPath_refl _
              · rcases underPath_iff.mp hre with rfl | ⟨s2, hs2⟩
                · exact absurd (mem_excludes_should_exclude he)
                    (by rw [hex]; exact Bool.noConfusion)
                · exfalso
                  rw [hs2] at hs
                  have h0 : root ++ '/' :: c.1
                      = root ++ '/' :: (s2 ++ '/' :: s) := by
                    rw [hs, List.append_assoc]
                    rfl
                  have h1 := List.append_cancel_left h0
                  injection h1 with h2b h3
                  have hmem : ('/' : Char) ∈ c.1 := by
                    rw [h3]
                    exact List.mem_append.mpr (Or.inr (List.mem_cons_self _ _))
                  have hvn := hvt2.1
                  rw [validName, Bool.and_eq_true, Bool.not_eq_true',
                    Bool.not_eq_true'] at hvn
                  have hany : c.1.any (fun c2 => c2 == '/') = true :=
                    List.any_eq_true.mpr ⟨'/', hmem, by rfl⟩
                  rw [hany] at hvn
                  exact Bool.noConfusion hvn.2
          exact (ih (root ++ '/' :: c.1) c.2).2 d e hvt2.2 he hed hp2e hdl
        rw [walk_sources_succ] at hd
        split_ifs at hd with hex hinc
        · exact absurd hd (List.not_mem_nil d)
        · rcases List.mem_append.mp hd with h1 | h2
          · have hdr : d = root := List.mem_singleton.mp h1
            subst hdr
            have her : e = d := underPath_antisymm hed hre
            rw [her] at he
            exact hex (mem_excludes_should_exclude he)
          · exact hsub h2 (by rw [Bool.not_eq_true] at hex; exact hex)
        · rw [List.nil_append] at hd
          exact hsub hd (by rw [Bool.not_eq_true] at hex; exact hex)

/-! ## C8: source-tree exclusion -/

def c8entry : Str := "a".toList

def c8excl : List Str := [c8entry]

def c8root : Str := "a/b".toList

def c8tree : FsTree := FsTree.node ["x.flac".toList] []

/-- C8 (counterexample): the claim that the source-set builder excludes a
directory whenever an exclusion entry is a path prefix of it fails.  With
exclusion list `["a"]` and the walk rooted at `"a/b"` (a directory holding
a `.flac` file), the entry `"a"` is a path prefix of `"a/b"`, yet `"a/b"`
is included in the source set: `should_exclude` tests only exact equality,
and `"a"` itself is never visited by this walk, so no pruning happens. -/
theorem walk_exclusion_prefix_cex :
    c8entry ∈ c8excl ∧ underPath c8entry c8root = true
    ∧ c8root ∈ walk_sources c8excl 1 c8root c8tree := by decide

/-- C8 (amended): the source-set builder excludes a directory when its path
is an exact match of an exclusion entry (`should_exclude`), and an excluded
directory's subtree is not descended into — hence any directory having an
exclusion entry *at or below the walk root* as itself or as a path-prefix
ancestor never enters the source set.  (An entry strictly above the walk
root has no effect, see the counterexample.) -/
theorem walk_exclusion_amended (excludes : List Str) (fuel : Nat) (root : Str)
    (t : FsTree) :
    (should_exclude root excludes = true →
      walk_sources excludes fuel root t = [])
    ∧ ∀ d e, validTree fuel t = true → e ∈ excludes →
        underPath e d = true → underPath root e = true →
        d ∉ walk_sources excludes fuel root t :=
  walk_exclusion_aux excludes fuel root t

def c8excl2 : List Str := ["a/b".toList]

def c8root2 : Str := "a".toList

def c8deep : Str := "a/b/c".toList

def c8tree2 : FsTree :=
  FsTree.node []
    [("b".toList, FsTree.node ["x.flac".toList]
      [("c".toList, FsTree.node ["y.flac".toList] [])])]

theorem walk_exclusion_amended_witness :
    c8deep ∉ walk_sources c8excl2 3 c8root2 c8tree2 :=
  (walk_exclusion_amended c8excl2 3 c8root2 c8tree2).2 c8deep ("a/b".toList)
    (by decide) (by decide) (by decide) (by decide)

/-! ## Action executor (opusdir.py lines 106-137 and 184-282)

The filesystem is an explicit state: a map from path to an abstract content
token for regular files, plus the set of existing directories.  Fallible
external operations (the encoder process, `os.mkdir`, `os.replace`,
`os.remove`, `os.rmdir`) have their outcomes chosen by an `Env`; each
executed action also appends `Event`s to a trace. -/

structure FS where
  files : List (Str × Nat)
  dirs : List Str
deriving DecidableEq, Repr

def lookupFile (fs : FS) (p : Str) : Option Nat :=
  (fs.files.find? (fun q => q.1 == p)).map (fun q => q.2)

def setFile (fs : FS) (p : Str) (c : Nat) : FS :=
  { fs with files := (p, c) :: fs.files.filter (fun q => !(q.1 == p)) }

def delFile (fs : FS) (p : Str) : FS :=
  { fs with files := fs.files.filter (fun q => !(q.1 == p)) }

def fsExists (fs : FS) (p : Str) : Bool :=
  fs.dirs.contains p || fs.files.any (fun q => q.1 == p)

/-- Environment choosing the outcome of every fallible external operation:
the encoder's exit status and output content for a given (source, output)
pair, and which OS calls fail with a non-"already exists" error. -/
structure Env where
  bitrate : Int
  encExit : Str → Str → Int
  encOut : Str → Str → Nat
  mkdirErr : Str → Bool
  renameErr : Str → Str → Bool
  removeErr : Str → Bool
  rmdirErr : Str → Bool

inductive Event where
  | encode (src tmp : Str)
  | renameOk (src dst : Str)
  | renameFailed (src dst : Str)
  | mkdirOk (p : Str)
  | mkdirFailed (p : Str)
  | transcodeFailed (src : Str)
  | copied (src dst : Str)
  | removed (p : Str)
  | removeFailed (p : Str)
  | rmdirOk (p : Str)
  | rmdirFailed (p : Str)
deriving DecidableEq, Repr

/-- `dotranscode` (opusdir.py lines 248-282): run the external encoder with
output path `destpath + ".partial"`; on non-zero exit, log and abandon the
action; on success, `os.replace` the temporary onto the final path (which
itself can fail, leaving only the temporary behind).  The encoder process is
modelled as writing to the output path given on its command line — always
the temporary path — with content and exit status chosen by the
environment (a failed encode may still have written partial output). -/
def dotranscode (env : Env) (fs : FS) (filepath destpath : Str) :
    FS × List Event :=
  let tmppath := destpath ++ inprogExt
  let fs1 := setFile fs tmppath (env.encOut filepath tmppath)
  if env.encExit filepath tmppath ≠ 0 then
    (fs1, [Event.encode filepath tmppath, Event.transcodeFailed filepath])
  else if env.renameErr tmppath destpath then
    (fs1, [Event.encode filepath tmppath, Event.renameFailed tmppath destpath])
  else
    (setFile (delFile fs1 tmppath) destpath (env.encOut filepath tmppath),
     [Event.encode filepath tmppath, Event.renameOk tmppath destpath])

/-- `posixpath.split`: split off the last path component.  The head keeps
its trailing separators stripped unless it is all separators. -/
def path_split (p : Str) : Str × Str :=
  let tail := (p.reverse.takeWhile (fun c => !(c == '/'))).reverse
  let head := p.take (p.length - tail.length)
  let head2 :=
    if !head.isEmpty && !(head.all (fun c => c == '/')) then
      (head.reverse.dropWhile (fun c => c == '/')).reverse
    else head
  (head2, tail)

/-- The upward scan of `domkdir` (opusdir.py lines 208-213): climb from
`path` toward the first existing ancestor or `root`, collecting the missing
directory names; returns the surviving base path and the missing names in
creation (top-down) order.  Recursion is bounded by `fuel`; any fuel above
`path.length` covers the Python loop, whose split strictly shortens the
path at every step it can take (in the one degenerate state, a missing
`"/"`, the Python loop would not terminate at all). -/
def climb (ex : Str → Bool) (root : Str) : Nat → Str → Str × List Str
  | 0, path => (path, [])
  | fuel+1, path =>
    if path ≠ root ∧ ex path = false then
      let hs := path_split path
      let r := climb ex root fuel hs.1
      (r.1, r.2 ++ [hs.2])
    else (path, [])

/-- The downward creation loop of `domkdir` (opusdir.py lines 214-223):
create each missing directory top-down; `FileExistsError` is tolerated
(`pass`), any other `OSError` (chosen by the environment) logs and breaks
out of the loop. -/
def create_dirs (env : Env) : FS → Str → List Str → FS × List Event
  | fs, _, [] => (fs, [])
  | fs, path, d :: rest =>
    let path2 := joinpath path d
    if fsExists fs path2 then
      create_dirs env fs path2 rest
    else if env.mkdirErr path2 then
      (fs, [Event.mkdirFailed path2])
    else
      let fs2 := { fs with dirs := path2 :: fs.dirs }
      let r := create_dirs env fs2 path2 rest
      (r.1, Event.mkdirOk path2 :: r.2)

/-- `domkdir` (opusdir.py lines 206-223): make all missing directories from
`destpath` up to (but not including) `root`. -/
def domkdir (env : Env) (fs : FS) (root destpath : Str) : FS × List Event :=
  let path := normpath destpath
  let nroot := normpath root
  let c := climb (fsExists fs) nroot (path.length + 1) path
  create_dirs env fs c.1 c.2

/-- `doremove` (opusdir.py lines 225-234): `FileNotFoundError` ("already
gone") is success; other failures log and abandon the action. -/
def doremove (env : Env) (fs : FS) (destpath : Str) : FS × List Event :=
  let path := normpath destpath
  if (lookupFile fs path).isNone then (fs, [])
  else if env.removeErr path then (fs, [Event.removeFailed path])
  else (delFile fs path, [Event.removed path])

/-- `dormdir` (opusdir.py lines 236-245). -/
def dormdir (env : Env) (fs : FS) (destpath : Str) : FS × List Event :=
  let path := normpath destpath
  if !fs.dirs.contains path then (fs, [])
  else if env.rmdirErr path then (fs, [Event.rmdirFailed path])
  else ({ fs with dirs := fs.dirs.filter (fun q => !(q == path)) },
    [Event.rmdirOk path])

/-- `shutil.copy` as used by `doaction` (opusdir.py line 198). -/
def docopy (env : Env) (fs : FS) (filepath destpath : Str) : FS × List Event :=
  (setFile fs destpath ((lookupFile fs filepath).getD 0),
   [Event.copied filepath destpath])

/-- `doaction` (opusdir.py lines 192-204). -/
def doaction (env : Env) (root : Str) (fs : FS) : Action → FS × List Event
  | Action.mkdir p => domkdir env fs root p
  | Action.transcode s d => dotranscode env fs s d
  | Action.copy s d => docopy env fs s d
  | Action.remove p => doremove env fs p
  | Action.rmdir p => dormdir env fs p

/-- The action loop of `main` (opusdir.py lines 117-128) with
`dry_run=False`: every action in the list is dispatched unconditionally —
there is no state recording earlier failures (see the XXX comment at lines
118-119).  Transcode actions are farmed out to worker threads through the
queue, but the queue is fully drained before shutdown (lines 130-137), so
for the purpose of which effects happen the loop is modelled as executing
each action in order. -/
def run_actions (env : Env) (root : Str) (fs : FS) : List Action → FS × List Event
  | [] => (fs, [])
  | a :: rest =>
    let r1 := doaction env root fs a
    let r2 := run_actions env root r1.1 rest
    (r2.1, r1.2 ++ r2.2)

/-! ## Lemmas about the filesystem state -/

theorem find?_filter_ne {l : List (Str × Nat)} {p q : Str} (h : q ≠ p) :
    (l.filter (fun e => !(e.1 == p))).find? (fun e => e.1 == q)
      = l.find? (fun e => e.1 == q) := by
  induction l with
  | nil => rfl
  | cons e l ih =>
    rw [List.filter_cons]
    by_cases he : e.1 = p
    · rw [if_neg (by rw [beq_iff_eq.mpr he]; exact Bool.noConfusion)]
      rw [ih, List.find?_cons_of_neg]
      rw [he]
      exact fun hc => h (beq_iff_eq.mp hc).symm
    · rw [if_pos (by rw [Bool.not_eq_true', beq_eq_false_iff_ne]; exact he)]
      by_cases hq : e.1 = q
      · rw [List.find?_cons_of_pos, List.find?_cons_of_pos]
        · exact beq_iff_eq.mpr hq
        · exact beq_iff_eq.mpr hq
      · rw [List.find?_cons_of_neg, List.find?_cons_of_neg, ih]
        · exact fun hc => hq (beq_iff_eq.mp hc)
        · exact fun hc => hq (beq_iff_eq.mp hc)

theorem lookupFile_setFile_ne (fs : FS) {p q : Str} (c : Nat) (h : q ≠ p) :
    lookupFile (setFile fs p c) q = lookupFile fs q := by
  unfold lookupFile setFile
  dsimp only
  rw [List.find?_cons_of_neg, find?_filter_ne h]
  exact fun hc => h (beq_iff_eq.mp hc).symm

theorem lookupFile_delFile_ne (fs : FS) {p q : Str} (h : q ≠ p) :
    lookupFile (delFile fs p) q = lookupFile fs q := by
  unfold lookupFile delFile
  dsimp only
  rw [find?_filter_ne h]

/-! ## C3: crash safety of the transcode step -/

/-- C3: for every executed transcode, the encoder writes only to the
temporary path `destpath + ".partial"` (distinct from the final path); the
destination under its final name changes only through the atomic rename,
which is performed only after the encoder exits zero; on non-zero exit no
rename occurs and the final destination path is left unchanged. -/
theorem dotranscode_temp_then_rename (env : Env) (fs : FS)
    (filepath destpath : Str) :
    destpath ++ inprogExt ≠ destpath
    ∧ (∀ s t, Event.encode s t ∈ (dotranscode env fs filepath destpath).2 →
        s = filepath ∧ t = destpath ++ inprogExt)
    ∧ (∀ p, p ≠ destpath ++ inprogExt → p ≠ destpath →
        lookupFile (dotranscode env fs filepath destpath).1 p = lookupFile fs p)
    ∧ (env.encExit filepath (destpath ++ inprogExt) ≠ 0 →
        lookupFile (dotranscode env fs filepath destpath).1 destpath
            = lookupFile fs destpath
        ∧ ∀ a b, Event.renameOk a b ∉ (dotranscode env fs filepath destpath).2)
    ∧ (∀ a b, Event.renameOk a b ∈ (dotranscode env fs filepath destpath).2 →
        env.encExit filepath (destpath ++ inprogExt) = 0
        ∧ a = destpath ++ inprogExt ∧ b = destpath
        ∧ (dotranscode env fs filepath destpath).2
            = [Event.encode filepath (destpath ++ inprogExt),
               Event.renameOk (destpath ++ inprogExt) destpath])
    ∧ (lookupFile (dotranscode env fs filepath destpath).1 destpath
          ≠ lookupFile fs destpath →
        env.encExit filepath (destpath ++ inprogExt) = 0
        ∧ Event.renameOk (destpath ++ inprogExt) destpath
            ∈ (dotranscode env fs filepath destpath).2) := by
  have htmp : destpath ++ inprogExt ≠ destpath := by
    intro h0
    have hlen := congrArg List.length h0
    rw [List.length_append] at hlen
    have h8 : inprogExt.length = 8 := by decide
    omega
  have hdt : destpath ≠ destpath ++ inprogExt := fun h0 => htmp h0.symm
  by_cases h1 : env.encExit filepath (destpath ++ inprogExt) ≠ 0
  · have hres : dotranscode env fs filepath destpath
        = (setFile fs (destpath ++ inprogExt)
             (env.encOut filepath (destpath ++ inprogExt)),
           [Event.encode filepath (destpath ++ inprogExt),
            Event.transcodeFailed filepath]) := by
      unfold dotranscode
      rw [if_pos h1]
    rw [hres]
    refine ⟨htmp, ?_, ?_, ?_, ?_, ?_⟩
    · intro s t hmem
      rcases List.mem_cons.mp hmem with heq | hmem2
      · injection heq with e1 e2
        exact ⟨e1, e2⟩
      · rcases List.mem_cons.mp hmem2 with heq | hmem3
        · exact Event.noConfusion heq
        · exact absurd hmem3 (List.not_mem_nil _)
    · intro p hp1 hp2
      exact lookupFile_setFile_ne fs _ hp1
    · intro _
      refine ⟨lookupFile_setFile_ne fs _ hdt, ?_⟩
      intro a b hmem
      rcases List.mem_cons.mp hmem with heq | hmem2
      · exact Event.noConfusion heq
      · rcases List.mem_cons.mp hmem2 with heq | hmem3
        · exact Event.noConfusion heq
        · exact absurd hmem3 (List.not_mem_nil _)
    · intro a b hmem
      rcases List.mem_cons.mp hmem with heq | hmem2
      · exact Event.noConfusion heq
      · rcases List.mem_cons.mp hmem2 with heq | hmem3
        · exact Event.noConfusion heq
        · exact absurd hmem3 (List.not_mem_nil _)
    · intro hne
      exact absurd (lookupFile_setFile_ne fs _ hdt) hne
  · have h0 : env.encExit filepath (destpath ++ inprogExt) = 0 := not_not.mp h1
    by_cases h2 : env.renameErr (destpath ++ inprogExt) destpath = true
    · have hres : dotranscode env fs filepath destpath
          = (setFile fs (destpath ++ inprogExt)
               (env.encOut filepath (destpath ++ inprogExt)),
             [Event.encode filepath (destpath ++ inprogExt),
              Event.renameFailed (destpath ++ inprogExt) destpath]) := by
        unfold dotranscode
        rw [if_neg h1, if_pos h2]
      rw [hres]
      refine ⟨htmp, ?_, ?_, ?_, ?_, ?_⟩
      · intro s t hmem
        rcases List.mem_cons.mp hmem with heq | hmem2
        · injection heq with e1 e2
          exact ⟨e1, e2⟩
        · rcases List.mem_cons.mp hmem2 with heq | hmem3
          · exact Event.noConfusion heq
          · exact absurd hmem3 (List.not_mem_nil _)
      · intro p hp1 hp2
        exact lookupFile_setFile_ne fs _ hp1
      · intro hx
        exact absurd h0 hx
      · intro a b hmem
        rcases List.mem_cons.mp hmem with heq | hmem2
        · exact Event.noConfusion heq
        · rcases List.mem_cons.mp hmem2 with heq | hmem3
          · exact Event.noConfusion heq
          · exact absurd hmem3 (List.not_mem_nil _)
      · intro hne
        exact absurd (lookupFile_setFile_ne fs _ hdt) hne
    · have hres : dotranscode env fs filepath destpath
          = (setFile (delFile (setFile fs (destpath ++ inprogExt)
                 (env.encOut filepath (destpath ++ inprogExt)))
               (destpath ++ inprogExt)) destpath
               (env.encOut filepath (destpath ++ inprogExt)),
             [Event.encode filepath (destpath ++ inprogExt),
              Event.renameOk (destpath ++ inprogExt) destpath]) := by
        unfold dotranscode
        rw [if_neg h1, if_neg h2]
      rw [hres]
      refine ⟨htmp, ?_, ?_, ?_, ?_, ?_⟩
      · intro s t hmem
        rcases List.mem_cons.mp hmem with heq | hmem2
        · injection heq with e1 e2
          exact ⟨e1, e2⟩
        · rcases List.mem_cons.mp hmem2 with heq | hmem3
          · exact Event.noConfusion heq
          · exact absurd hmem3 (List.not_mem_nil _)
      · intro p hp1 hp2
        rw [lookupFile_setFile_ne _ _ hp2, lookupFile_delFile_ne _ hp1,
          lookupFile_setFile_ne _ _ hp1]
      · intro hx
        exact absurd h0 hx
      · intro a b hmem
        rcases List.mem_cons.mp hmem with heq | hmem2
        · exact Event.noConfusion heq
        · rcases List.mem_cons.mp hmem2 with heq | hmem3
          · injection heq with e1 e2
            exact ⟨h0, e1, e2, rfl⟩
          · exact absurd hmem3 (List.not_mem_nil _)
      · intro hne
        exact ⟨h0, List.mem_cons_of_mem _ (List.mem_cons_self _ _)⟩

def c3env : Env :=
  { bitrate := 96
    encExit := fun _ _ => 1
    encOut := fun _ _ => 7
    mkdirErr := fun _ => false
    renameErr := fun _ _ => false
    removeErr := fun _ => false
    rmdirErr := fun _ => false }

def c3fs : FS := ⟨[], []⟩

def c3srcPath : Str := "a/foo.flac".toList

def c3dstPath : Str := "b/foo.opus".toList

theorem dotranscode_temp_then_rename_witness :
    lookupFile (dotranscode c3env c3fs c3srcPath c3dstPath).1 c3dstPath
        = lookupFile c3fs c3dstPath
    ∧ ∀ a b, Event.renameOk a b ∉ (dotranscode c3env c3fs c3srcPath c3dstPath).2 :=
  (dotranscode_temp_then_rename c3env c3fs c3srcPath c3dstPath).2.2.2.1
    (by decide)

/-! ## C9: behaviour after a failed mkdir -/

def c9root : Str := "d".toList

def c9dirB : Str := "d/b".toList

def c9srcPath : Str := "a/foo.flac".toList

def c9dstPath : Str := "d/b/foo.opus".toList

def c9tmpPath : Str := "d/b/foo.opus.partial".toList

def c9env : Env :=
  { bitrate := 96
    encExit := fun _ _ => 0
    encOut := fun _ _ => 7
    mkdirErr := fun p => p == c9dirB
    renameErr := fun _ _ => false
    removeErr := fun _ => false
    rmdirErr := fun _ => false }

def c9fs : FS := ⟨[(c9srcPath, 42)], [c9root]⟩

def c9actions : List Action :=
  [Action.mkdir c9dirB, Action.transcode c9srcPath c9dstPath]

/-- C9 (the code at the failing input): when the `mkdir` of `d/b` fails
with a non-"already exists" error, main's action loop nevertheless executes
the following transcode into `d/b`: the encoder is invoked on the temporary
path inside the failed directory and the rename onto the final path is
performed, after the mkdir failure was logged.  The loop at opusdir.py
lines 120-128 keeps no record of failed directories (the code's own XXX
comment at lines 118-119 flags this). -/
theorem run_actions_mkdir_failure_still_transcodes :
    (run_actions c9env c9root c9fs c9actions).2
      = [Event.mkdirFailed c9dirB, Event.encode c9srcPath c9tmpPath,
         Event.renameOk c9tmpPath c9dstPath] := by decide

end Opusdir
